import Mathlib

/-
Verification of the hseg corpus-ingestion and annotation-tree engine
(src/datasets/icsi.py and src/datasets/ami.py) against its design
specification.  Each Python fragment relevant to a claim is embedded as an
executable Lean definition; machine floats that are merely carried through
(never computed with, apart from one `+ 1.0` fallback) are modelled as
integers.  Definitions come first, then the theorems.
-/

namespace HSeg

/-! ## Transition smoothing (icsi.py 674-680, ami.py 418-424)

The Python loop is

    transitions = raw_transitions.copy()
    for i, _ in enumerate(raw_transitions):
        if sum(transitions[i - self.MIN_SEGMENT_SIZE : i]) > 0:
            transitions[i] = 0

`transitions[a : b]` is a Python slice: a negative start index counts from
the end of the list.  `py_slice` reproduces exactly that semantics. -/

/-- Python list slice `l[a : b]` (start may be negative, counting from the
end; both bounds are clamped into `[0, len]`). -/
def py_slice (l : List Nat) (a b : Int) : List Nat :=
  let n := l.length
  let a1 : Nat := if a < 0 then ((n : Int) + a).toNat else min a.toNat n
  let b1 : Nat := if b < 0 then ((n : Int) + b).toNat else min b.toNat n
  (l.take b1).drop a1

/-- One iteration of the smoothing loop body at position `i`:
`if sum(transitions[i - M : i]) > 0: transitions[i] = 0`. -/
def smooth_step (M : Nat) (transitions : List Nat) (i : Nat) : List Nat :=
  if 0 < (py_slice transitions ((i : Int) - (M : Int)) (i : Int)).sum then
    transitions.set i 0
  else
    transitions

/-- The smoothing pass of `compose_meeting_notes`: left-to-right scan over a
mutable copy of the raw transition vector, suppressing position `i` whenever
the (Python-sliced) window `transitions[i - M : i]` of the working copy
contains a surviving boundary. -/
def smooth_transitions (M : Nat) (raw_transitions : List Nat) : List Nat :=
  (List.range raw_transitions.length).foldl (smooth_step M) raw_transitions

/-! ## Raw transition vector (icsi.py 652-672, ami.py 396-416)

`compose_meeting_notes` walks the discovered leaves in order; for every
utterance of every leaf it appends 1 when the current leaf id differs from
`prev_leaf_id` (updating `prev_leaf_id`), else 0.  Only the number of
utterances per leaf matters for the emitted bits, so a meeting is modelled
as the list of its leaves' `convo` lengths, in discovery order. -/

/-- Inner loop of `compose_meeting_notes` over the `c` utterances of the
leaf with index `leaf_id`, starting from `prev_leaf_id = prev`.  Returns the
final `prev_leaf_id` together with the emitted bits. -/
def raw_leaf (leaf_id : Nat) : Nat → Nat → Nat × List Nat
  | prev, 0 => (prev, [])
  | prev, Nat.succ n =>
    if leaf_id ≠ prev then
      let r := raw_leaf leaf_id leaf_id n
      (r.1, 1 :: r.2)
    else
      let r := raw_leaf leaf_id prev n
      (r.1, 0 :: r.2)

/-- Outer loop of `compose_meeting_notes` over the enumerated leaves,
threading `prev_leaf_id`. -/
def raw_meeting : Nat → Nat → List Nat → List Nat
  | _, _, [] => []
  | leaf_id, prev, c :: cs =>
    let r := raw_leaf leaf_id prev c
    r.2 ++ raw_meeting (leaf_id + 1) r.1 cs

/-- The `raw_transitions` vector of a meeting whose leaves have, in
discovery order, `convos` utterances each (`leaf_id` enumeration starts at 0
and `prev_leaf_id` is initialised to 0, as in the source). -/
def raw_transitions (convos : List Nat) : List Nat :=
  raw_meeting 0 0 convos

/-- Owning-leaf index of each position of the flattened utterance sequence,
starting the leaf enumeration at `leaf_id`. -/
def owners_from : Nat → List Nat → List Nat
  | _, [] => []
  | leaf_id, c :: cs => List.replicate c leaf_id ++ owners_from (leaf_id + 1) cs

/-- Owning-leaf index of each position of the flattened utterance
sequence. -/
def owners (convos : List Nat) : List Nat := owners_from 0 convos

/-- Specification-side bit sequence: given the owner of the preceding
position, emit 1 exactly when the owner changes. -/
def pair_bits : Nat → List Nat → List Nat
  | _, [] => []
  | p, x :: xs => (if x ≠ p then 1 else 0) :: pair_bits x xs

/-- Last element of a list, with default `p` (proof helper for threading the
`prev_leaf_id` state across leaves). -/
def last_owner (p : Nat) : List Nat → Nat
  | [] => p
  | x :: xs => last_owner x xs

/-! ## Annotation tree and leaf discovery (icsi.py 552-569, ami.py 342-359)

`discover_anno_leaves` walks the tree with an explicit stack: it pops a
node, appends it to `leaves` when `is_leaf`, and pushes the node's children
in reversed order so that pops happen in document order.  A Python stack
(`append`/`pop` at the right end) with children pushed reversed corresponds
to a Lean list with its head as the top of the stack and the children
prepended in order.  The per-node payload only needs the fields the
traversal reads (`is_leaf`, `nn`) plus the `convo` list (modelled as opaque
utterance identifiers) for the flattening property. -/

inductive AnnoTree where
  | mk (is_leaf : Bool) (convo : List Nat) (nn : List AnnoTree)


/-- Field accessor for `is_leaf`. -/
def AnnoTree.is_leaf : AnnoTree → Bool
  | .mk b _ _ => b

/-- Field accessor for `convo` (the leaf's resolved utterances). -/
def AnnoTree.convo : AnnoTree → List Nat
  | .mk _ c _ => c

/-- Field accessor for `nn` (the ordered children). -/
def AnnoTree.nn : AnnoTree → List AnnoTree
  | .mk _ _ nn => nn

/-- Number of nodes in a forest (termination measure). -/
def forest_size : List AnnoTree → Nat
  | [] => 0
  | AnnoTree.mk _ _ nn :: rest => 1 + forest_size nn + forest_size rest

theorem forest_size_append (a b : List AnnoTree) :
    forest_size (a ++ b) = forest_size a + forest_size b := by
  induction a with
  | nil => simp [forest_size]
  | cons x xs ih =>
    cases x
    simp [forest_size, ih]
    omega

/-- The `while stack:` loop of `discover_anno_leaves`.  The head of the
argument list is the top of the stack; popping the node `mk b c nn` and
pushing `nn` reversed leaves the stack `nn ++ rest`. -/
def discover_loop : List AnnoTree → List AnnoTree
  | [] => []
  | AnnoTree.mk b c nn :: rest =>
    (if b then [AnnoTree.mk b c nn] else []) ++ discover_loop (nn ++ rest)
termination_by l => forest_size l
decreasing_by
  simp only [forest_size, forest_size_append]
  omega

/-- `discover_anno_leaves`: the stack starts as `[anno_root]`. -/
def discover_anno_leaves (anno_root : AnnoTree) : List AnnoTree :=
  discover_loop [anno_root]

/-- Specification-side recursive pre-order, left-to-right leaf traversal of
a forest. -/
def preorder_leaves_forest : List AnnoTree → List AnnoTree
  | [] => []
  | AnnoTree.mk b c nn :: rest =>
    (if b then [AnnoTree.mk b c nn] else []) ++
      preorder_leaves_forest nn ++ preorder_leaves_forest rest
termination_by l => forest_size l
decreasing_by
  all_goals simp only [forest_size]
  all_goals omega

/-- Specification-side recursive pre-order leaf traversal of a tree. -/
def preorder_leaves (t : AnnoTree) : List AnnoTree :=
  preorder_leaves_forest [t]

/-- All utterances stored anywhere in a forest, in pre-order: the meeting's
full flattened utterance sequence. -/
def all_convos : List AnnoTree → List Nat
  | [] => []
  | AnnoTree.mk _ c nn :: rest => c ++ all_convos nn ++ all_convos rest
termination_by l => forest_size l
decreasing_by
  all_goals simp only [forest_size]
  all_goals omega

/-- Every non-leaf node of the forest carries no utterances (true of the
pipeline's trees: only leaves receive a `convo`). -/
def non_leaf_empty : List AnnoTree → Bool
  | [] => true
  | AnnoTree.mk b c nn :: rest =>
    (b || c.isEmpty) && non_leaf_empty nn && non_leaf_empty rest
termination_by l => forest_size l
decreasing_by
  all_goals simp only [forest_size]
  all_goals omega

/-! ## Token absorption and ICSI utterance composition (icsi.py 240-283)

`absorb_token` merges one classified token into the utterance being
accumulated.  Tokens are modelled with the three fields the composition
reads (`text`, `lspace`, `rspace`); in the source the accumulator reads
`utterance.get("rspace", True)`, and every entry produced by
`make_word_entry` carries an `rspace` key, so it is a plain field here. -/

structure Tok where
  text : String
  lspace : Bool
  rspace : Bool
deriving DecidableEq

/-- `absorb_token(utterance, token)`: starting a fresh utterance returns the
token itself; otherwise append the token's text, preceded by a single space
exactly when the accumulated `rspace` and the token's `lspace` are both
true, and take over the token's `rspace`. -/
def absorb_token : Option Tok → Tok → Tok
  | none, token => token
  | some utterance, token =>
    let spaced := utterance.rspace && token.lspace
    let suffix := (if spaced then " " else "") ++ token.text
    { utterance with text := utterance.text ++ suffix, rspace := token.rspace }

/-- The composition walk of `load_meeting_utterances` over a resolved token
range: gaps (`None` words) are skipped, every other token is absorbed. -/
def compose_range (words : List (Option Tok)) : Option Tok :=
  words.foldl
    (fun utterance word =>
      match word with
      | none => utterance
      | some token => some (absorb_token utterance token))
    none

/-- Specification-side text of the suffix of a composition: given the
previous token, each further token contributes a single space (exactly when
the previous token's right-space flag and its own left-space flag are both
true) followed by its text. -/
def spec_join : Tok → List Tok → String
  | _, [] => ""
  | prev, t :: ts => (if prev.rspace && t.lspace then " " else "") ++ t.text ++ spec_join t ts

/-- Specification-side composed text of a gap-free token list: the
concatenation of the texts with single spaces at flagged junctions; `none`
for an empty list. -/
def spec_composed_text : List Tok → Option String
  | [] => none
  | t :: ts => some (t.text ++ spec_join t ts)

/-- ICSI utterance record produced for one segment (times modelled as
integers; the embedded fragment only copies them, apart from the
`end = start + 1.0` fallback). -/
structure ISegUtt where
  text : String
  lspace : Bool
  rspace : Bool
  speaker : String
  key : String
  tstart : Option Int
  tend : Option Int
deriving DecidableEq

/-- Per-segment body of ICSI `load_meeting_utterances` (lines 240-260):
compose the word range; when nothing was absorbed (`if utterance:` falsy)
the segment is silently skipped, producing no utterance; otherwise attach
speaker, key and times, substituting `start + 1.0` for a missing end time
(an error if the start is also missing, as `None + 1.0` would raise). -/
def icsi_process_seg (words : List (Option Tok)) (seg_id speaker : String)
    (seg_start seg_end : Option Int) : Except String (Option ISegUtt) :=
  match compose_range words with
  | none => .ok none
  | some u =>
    match seg_end with
    | some e => .ok (some ⟨u.text, u.lspace, u.rspace, speaker, seg_id, seg_start, some e⟩)
    | none =>
      match seg_start with
      | some s => .ok (some ⟨u.text, u.lspace, u.rspace, speaker, seg_id, some s, some (s + 1)⟩)
      | none => .error "TypeError"

/-! ## ICSI token classification (icsi.py 288-392)

`make_word_entry` classifies one token given its corpus type code, its text
and the per-speaker quote stack.  Python's `quote_stack.append("LEFT")` and
`quote_stack.pop()` act on the right end of the list, so push is `++
["LEFT"]` and pop is `dropLast`.  Uncaught Python exceptions (subscripting
absent/empty text, the `raise Exception("UnsupportedType", ...)`) are the
`Except.error` results. -/

structure WordEntry where
  tag : Option String
  lspace : Bool
  rspace : Bool
  text : Option String
deriving DecidableEq

/-- The apostrophe character (written by code point to keep the source free
of bare quote characters). -/
def apos_char : Char := Char.ofNat 39

/-- The one-character apostrophe string compared against `text`. -/
def apos_str : String := String.mk [apos_char]

/-- Number of recursive re-classification steps still possible from a token
type (termination measure: `W`/`TRUNCW` can re-dispatch to `APOSS`, `SYM` to
`HYPH`, `QUOTE` to `LQUOTE`/`RQUOTE`; everything else is terminal). -/
def wt_rank : Option String → Nat
  | some "W" => 1
  | some "TRUNCW" => 1
  | some "SYM" => 1
  | some "QUOTE" => 1
  | _ => 0

/-- `make_word_entry(word_type, text, quote_stack)`: returns the classified
entry (or `none` for a discarded/non-verbal token) together with the updated
quote stack, or an error for the uncaught exception paths. -/
def make_word_entry (word_type : Option String) (text : Option String)
    (quote_stack : List String) : Except String (Option WordEntry × List String) :=
  let entry : WordEntry := ⟨word_type, true, true, text⟩
  match word_type with
  | some "W" | some "TRUNCW" =>
    match text with
    | none => .error "TypeError"
    | some t =>
      match t.data with
      | [] => .error "IndexError"
      | c :: _ =>
        if c = apos_char then make_word_entry (some "APOSS") text quote_stack
        else .ok (some entry, quote_stack)
  | some "ABBR" => .ok (some entry, quote_stack)
  | some "LET" => .ok (some entry, quote_stack)
  | some "CD" => .ok (some entry, quote_stack)
  | some "SYM" =>
    if text = some "-" then make_word_entry (some "HYPH") text quote_stack
    else .ok (none, quote_stack)
  | some "HYPH" =>
    .ok (some { entry with lspace := false, rspace := false }, quote_stack)
  | some "CM" => .ok (some { entry with lspace := false }, quote_stack)
  | some "." => .ok (some { entry with lspace := false }, quote_stack)
  | some "APOSS" => .ok (some { entry with lspace := false }, quote_stack)
  | some "LQUOTE" =>
    if text = some apos_str then
      .ok (some { entry with tag := some "APOSS", lspace := false, rspace := false },
        quote_stack)
    else
      .ok (some { entry with rspace := false }, quote_stack ++ ["LEFT"])
  | some "RQUOTE" =>
    if text = some apos_str then
      .ok (some { entry with tag := some "APOSS", lspace := false, rspace := false },
        quote_stack)
    else
      if quote_stack.isEmpty then
        .ok (some { entry with lspace := false }, quote_stack)
      else
        .ok (some { entry with lspace := false }, quote_stack.dropLast)
  | some "QUOTE" =>
    if text = some apos_str then
      .ok (some { entry with tag := some "APOSS", lspace := false, rspace := false },
        quote_stack)
    else
      if quote_stack.isEmpty then make_word_entry (some "LQUOTE") text quote_stack
      else make_word_entry (some "RQUOTE") text quote_stack
  | none => .ok (none, quote_stack)
  | some _ => .error "UnsupportedType"
termination_by wt_rank word_type
decreasing_by all_goals decide

/-! ## Key resolution and duplicate detection (icsi.py 572-599)

`attach_meeting_notes` resolves each discovered leaf's utterance keys
against the per-meeting index, dropping keys that do not resolve, warning
on keys already claimed by an earlier leaf, and storing the resolved
entries as the leaf's `convo`.  A key `"<speaker>:<utt_key>"` is modelled
pre-split as the pair `(speaker, utt_key)`; resolution
(`self.index[meeting][speaker]` lookups) is an abstract total map to an
optional utterance id; `duplicate_check_list` (a dict keyed by the full
key, overwritten on re-claim) is an association list with prepend
shadowing; `logger.warning` is modelled by returning the list of warning
records `(key, claiming leaf path, previously stored path)`. -/

structure NoteLeaf where
  path : List Nat
  keys : List (String × String)
  convo : List Nat
deriving DecidableEq

/-- Inner loop of `attach_meeting_notes` over one leaf's keys: skip keys
that fail to resolve; for a resolving key, warn if it is already in the
duplicate table, then append it to `filtered_keys`, record it in the table
and append the resolved utterance to `convo`.  Returns
`(filtered_keys, convo, duplicate table, warnings)`. -/
def attach_leaf (idx : String → String → Option Nat) (leaf_path : List Nat) :
    List ((String × String) × List Nat) → List (String × String) →
      List (String × String) × List Nat × List ((String × String) × List Nat) ×
        List ((String × String) × List Nat × List Nat)
  | dup, [] => ([], [], dup, [])
  | dup, k :: ks =>
    match idx k.1 k.2 with
    | none => attach_leaf idx leaf_path dup ks
    | some u =>
      let warns :=
        match dup.find? (fun e => decide (e.1 = k)) with
        | some e => [(k, leaf_path, e.2)]
        | none => []
      let r := attach_leaf idx leaf_path ((k, leaf_path) :: dup) ks
      (k :: r.1, u :: r.2.1, r.2.2.1, warns ++ r.2.2.2)

/-- Outer loop of `attach_meeting_notes` over the discovered leaves,
threading the duplicate table and replacing each leaf's `keys`/`convo` by
the filtered/resolved versions. -/
def attach_meeting_notes (idx : String → String → Option Nat) :
    List ((String × String) × List Nat) → List NoteLeaf →
      List NoteLeaf × List ((String × String) × List Nat × List Nat)
  | _, [] => ([], [])
  | dup, lf :: rest =>
    let r := attach_leaf idx lf.path dup lf.keys
    let r2 := attach_meeting_notes idx r.2.2.1 rest
    ({ lf with keys := r.1, convo := r.2.1 } :: r2.1, r.2.2.2 ++ r2.2)

/-! ## ICSI annotation tree normalization (icsi.py 395-506)

`build_anno` (ICSI) produces a tree whose nodes are either utterance
placeholders (tag "utterance", holding a key) or interior nodes (tag
"root"/"topic", holding ordered children); `normalize_anno_tree` then walks
it, assigning a path to every surviving node and registering the path into
the `anno_index`, converting each maximal run of leading utterance children
of an interior node into a synthetic leaf child, and turning a node all of
whose children are utterances into a leaf holding those keys.  A path
`"<parent>.<ordinal>"` is modelled as the parent's segment list with the
ordinal appended (the string rendering of dot-joined decimal ordinals is
injective on such lists, as decimal numerals contain no dot).  The
`anno_index` dict is modelled as the list of registered paths, in
registration order; `exit(-1)` on a duplicate is the error result. -/

inductive RawAnno where
  | utt (key : String)
  | topic (nn : List RawAnno)

/-- Tag test `child.tag == "utterance"`. -/
def RawAnno.is_utt : RawAnno → Bool
  | .utt _ => true
  | .topic _ => false

/-- Number of nodes in a raw forest (termination measure). -/
def raw_forest_size : List RawAnno → Nat
  | [] => 0
  | RawAnno.utt _ :: rest => 1 + raw_forest_size rest
  | RawAnno.topic nn :: rest => 1 + raw_forest_size nn + raw_forest_size rest

/-- Number of nodes in a raw tree. -/
def raw_size (t : RawAnno) : Nat := raw_forest_size [t]

/-- The inner `while nn and nn[0].tag=="utterance"` run-collection: pops the
maximal leading run of utterance keys. -/
def take_utts : List RawAnno → List String × List RawAnno
  | RawAnno.utt k :: rest =>
    let r := take_utts rest
    (k :: r.1, r.2)
  | l => ([], l)

theorem take_utts_size_le (l : List RawAnno) :
    raw_forest_size (take_utts l).2 ≤ raw_forest_size l := by
  induction l with
  | nil => simp [take_utts]
  | cons h t ih =>
    cases h with
    | utt k =>
      simp only [take_utts, raw_forest_size]
      omega
    | topic nn =>
      simp [take_utts, raw_forest_size]

/-- Normalized annotation node: assigned path, leaf flag, leaf payload keys
and normalized children. -/
inductive NormNode where
  | mk (path : List Nat) (is_leaf : Bool) (keys : List String) (nn : List NormNode)

/-- Field accessor for the assigned path. -/
def NormNode.path : NormNode → List Nat
  | .mk p _ _ _ => p

/-- Field accessor for the leaf flag. -/
def NormNode.is_leaf : NormNode → Bool
  | .mk _ b _ _ => b

/-- Field accessor for the leaf payload keys. -/
def NormNode.keys : NormNode → List String
  | .mk _ _ k _ => k

/-- Field accessor for the normalized children. -/
def NormNode.nn : NormNode → List NormNode
  | .mk _ _ _ nn => nn

/-- `register_anno_node`: fatal (`exit(-1)`) on a duplicate path, otherwise
record the path in the index. -/
def register_anno_node (anno_index : List (List Nat)) (path : List Nat) :
    Except String (List (List Nat)) :=
  if path ∈ anno_index then .error "Duplicate node path"
  else .ok (anno_index ++ [path])

mutual

/-- `normalize_anno_tree(path, node, anno_index)`: register the node's
path, compute `is_leaf` (all children are utterance placeholders), then
process the children; returns the normalized node and the updated index.
An utterance placeholder passed directly (never done by the pipeline, which
recurses only into `topic` children) has no children, so it registers and
returns an empty leaf, exactly as the Python code would. -/
def normalize_anno_tree (path : List Nat) (node : RawAnno)
    (anno_index : List (List Nat)) : Except String (NormNode × List (List Nat)) :=
  match register_anno_node anno_index path with
  | .error e => .error e
  | .ok index1 =>
    match node with
    | .utt _ => .ok (.mk path true [] [], index1)
    | .topic nn => normalize_loop path (nn.all RawAnno.is_utt) nn 0 index1 []
termination_by 2 * raw_size node
decreasing_by
  simp only [raw_size, raw_forest_size]
  omega

/-- The `while nn:` loop of `normalize_anno_tree`: a leading run of
utterance children becomes the node's own payload (leaf case, processing
stops) or a registered synthetic leaf child at the next branch ordinal; a
`topic` child is normalized recursively at the next branch ordinal; the
loop ends by assembling the node from the accumulated normalized
children. -/
def normalize_loop (path : List Nat) (is_leaf : Bool) (nn : List RawAnno)
    (branch_id : Nat) (anno_index : List (List Nat)) (acc : List NormNode) :
    Except String (NormNode × List (List Nat)) :=
  match nn with
  | [] => .ok (.mk path is_leaf [] acc, anno_index)
  | RawAnno.utt k :: rest =>
    let r := take_utts rest
    let composed_topic_keys := k :: r.1
    if is_leaf then
      .ok (.mk path is_leaf composed_topic_keys [], anno_index)
    else
      match register_anno_node anno_index (path ++ [branch_id]) with
      | .error e => .error e
      | .ok index2 =>
        normalize_loop path is_leaf r.2 (branch_id + 1) index2
          (acc ++ [.mk (path ++ [branch_id]) true composed_topic_keys []])
  | RawAnno.topic cnn :: rest =>
    match normalize_anno_tree (path ++ [branch_id]) (.topic cnn) anno_index with
    | .error e => .error e
    | .ok (child, index2) =>
      normalize_loop path false rest (branch_id + 1) index2 (acc ++ [child])
termination_by 2 * raw_forest_size nn + 1
decreasing_by
  · have h := take_utts_size_le rest
    simp only [raw_forest_size]
    omega
  · simp only [raw_size, raw_forest_size]
    omega
  · simp only [raw_forest_size]
    omega

end

/-- Number of nodes in a normalized forest (termination measure). -/
def norm_forest_size : List NormNode → Nat
  | [] => 0
  | NormNode.mk _ _ _ nn :: rest => 1 + norm_forest_size nn + norm_forest_size rest

/-- Checks, for a forest of normalized nodes under a parent with path `pp`,
that every node's path is `pp` extended by exactly one ordinal segment,
recursively. -/
def paths_ok_forest : List Nat → List NormNode → Bool
  | _, [] => true
  | pp, NormNode.mk p _b _k nn :: rest =>
    (!p.isEmpty && decide (p.dropLast = pp)) && paths_ok_forest p nn &&
      paths_ok_forest pp rest
termination_by _ l => norm_forest_size l
decreasing_by
  all_goals simp only [norm_forest_size]
  all_goals omega

/-- Checks that every node of the tree below the given node has its
parent's path extended by exactly one ordinal segment. -/
def node_paths_ok : NormNode → Bool
  | .mk p _ _ nn => paths_ok_forest p nn

/-! ## AMI word index, utterance splitting and tree builder (ami.py 67-315)

AMI words are pre-resolved at load time (text plus spacing flags plus
times); `segment_to_utterances` resolves `href` references against the
per-meeting/per-speaker word index, splitting ranges at sentence-final
punctuation; `build_anno` builds the annotation tree directly, registering
every node path on entry.  An `href` of the form
`<meeting>.<speaker>...#id(<key>)` or `...#id(<k1>)..id(<k2>)` is modelled
pre-parsed (the `strip_key` helper lives in the repository's `data_utils`
module, which is not among the source files; per the spec the reference
encodes meeting, speaker and one key or an inclusive key range).  Times are
carried as integers; Python `raise` and `KeyError`/`IndexError` are the
error results.  `word_index["words"][i]` for `i` in the resolved inclusive
range is modelled by `drop`/`take`; the range endpoints come from the index
so they are in bounds in every reachable call. -/

structure AWord where
  text : String
  lspace : Bool
  rspace : Bool
  wstart : Int
  wend : Int
deriving DecidableEq

structure WordIdx where
  words : List (Option AWord)
  index : List (String × Nat)
deriving DecidableEq

/-- Lookup `word_index["index"][key]`. -/
def lookup_index (w : WordIdx) (k : String) : Option Nat :=
  (w.index.find? (fun e => decide (e.1 = k))).map (fun e => e.2)

/-- A pre-parsed `href` selector: an inclusive `first..last` key range or a
single key. -/
inductive SegRange where
  | range (start_word end_word : String)
  | single (word_key : String)
deriving DecidableEq

/-- A pre-parsed `href` cross-reference of one `child` element. -/
structure SegRef where
  content : String
  meeting : String
  speaker : String
  sel : SegRange
deriving DecidableEq

/-- AMI utterance record (the `meeting` field and the later-attached
`composite` display string included). -/
structure AmiUtt where
  key : String
  speaker : String
  meeting : String
  ustart : Int
  uend : Int
  text : String
  composite : String := ""
deriving DecidableEq

/-- Text accumulation loop of `mint_utterance`: a space is inserted before
a word exactly when its `lspace` and the previous word's `rspace` are both
true (the running `rspace` starts out false). -/
def mint_text : Bool → List AWord → String
  | _, [] => ""
  | rspace, w :: ws =>
    ((if w.lspace && rspace then " " else "") ++ w.text) ++ mint_text w.rspace ws

/-- `mint_utterance`: one utterance from a nonempty accumulated word list,
with times from the first/last constituent word (`utt_words[0]` on an empty
list would raise). -/
def mint_utterance (utt_content speaker meeting : String)
    (utt_words : List AWord) : Except String AmiUtt :=
  match utt_words with
  | [] => .error "IndexError"
  | w0 :: rest =>
    .ok { key := utt_content, speaker := speaker, meeting := meeting,
          ustart := w0.wstart,
          uend := (List.getLast (w0 :: rest) (by simp)).wend,
          text := mint_text false (w0 :: rest) }

/-- Range walk of `segment_to_utterances`: skip gaps, accumulate words,
close and emit an utterance at every word whose text ends in
sentence-final punctuation (subscripting the last character of an empty
text would raise), and emit any trailing partial accumulator. -/
def split_words (utt_content speaker meeting : String) :
    List (Option AWord) → List AWord → Except String (List AmiUtt)
  | [], utt_words =>
    match utt_words with
    | [] => .ok []
    | w :: ws =>
      match mint_utterance utt_content speaker meeting (w :: ws) with
      | .error e => .error e
      | .ok u => .ok [u]
  | none :: rest, utt_words => split_words utt_content speaker meeting rest utt_words
  | some w :: rest, utt_words =>
    let utt_words1 := utt_words ++ [w]
    match w.text.data.getLast? with
    | none => .error "IndexError"
    | some c =>
      if c = '.' || c = '!' || c = '?' then
        match mint_utterance utt_content speaker meeting utt_words1 with
        | .error e => .error e
        | .ok u =>
          match split_words utt_content speaker meeting rest [] with
          | .error e => .error e
          | .ok us => .ok (u :: us)
      else split_words utt_content speaker meeting rest utt_words1

/-- One `entry` of `segment_to_utterances`: resolve the reference against
the word table (`self.words[meeting][speaker]`, a `KeyError` when absent).
A range is walked with `split_words`; a single key yields one utterance
directly from the word, or nothing when the word is a gap. -/
def seg_entry_utts (ws : List ((String × String) × WordIdx)) (ref : SegRef) :
    Except String (List AmiUtt) :=
  match ws.find? (fun e => decide (e.1 = (ref.meeting, ref.speaker))) with
  | none => .error "KeyError"
  | some (_, word_index) =>
    match ref.sel with
    | .range start_word end_word =>
      match lookup_index word_index start_word, lookup_index word_index end_word with
      | some start_idx, some end_idx =>
        split_words ref.content ref.speaker ref.meeting
          ((word_index.words.drop start_idx).take (end_idx + 1 - start_idx)) []
      | _, _ => .error "KeyError"
    | .single word_key =>
      match lookup_index word_index word_key with
      | none => .error "KeyError"
      | some word_idx =>
        match word_index.words[word_idx]? with
        | none => .error "IndexError"
        | some none => .ok []
        | some (some w) =>
          .ok [{ key := ref.content, speaker := ref.speaker,
                 meeting := ref.meeting, ustart := w.wstart, uend := w.wend,
                 text := w.text }]

/-- Loop of `segment_to_utterances` over the entries, concatenating the
produced utterances. -/
def seg_all_utts (ws : List ((String × String) × WordIdx)) :
    List SegRef → Except String (List AmiUtt)
  | [] => .ok []
  | r :: rs =>
    match seg_entry_utts ws r with
    | .error e => .error e
    | .ok us =>
      match seg_all_utts ws rs with
      | .error e => .error e
      | .ok more => .ok (us ++ more)

/-- `compose_utterance` (ami.py 134-144) on the default untimed
configuration: the display string is a dash followed by the text (the
timed branch renders clock times via the absent `data_utils` helper and is
switched off in every construction in the repository). -/
def ami_compose_utterance (u : AmiUtt) : String := "-" ++ u.text

/-- `segment_to_utterances`: resolve all entries, attach each utterance's
`composite` display string, and return the key list alongside. -/
def segment_to_utterances (ws : List ((String × String) × WordIdx))
    (entries : List SegRef) : Except String (List String × List AmiUtt) :=
  match seg_all_utts ws entries with
  | .error e => .error e
  | .ok utterances =>
    let utterances :=
      utterances.map (fun u => { u with composite := ami_compose_utterance u })
    .ok (utterances.map AmiUtt.key, utterances)

/-- An element of the AMI topic annotation document: a tag, an optional
`href` cross-reference and the ordered children. -/
inductive AmiXml where
  | elem (tag : String) (href : Option SegRef) (children : List AmiXml)

/-- Number of elements in an AMI document forest (termination measure). -/
def ami_forest_size : List AmiXml → Nat
  | [] => 0
  | AmiXml.elem _ _ cs :: rest => 1 + ami_forest_size cs + ami_forest_size rest

/-- Number of elements in an AMI document tree. -/
def ami_size (x : AmiXml) : Nat := ami_forest_size [x]

/-- Field accessor for the element tag. -/
def AmiXml.tag : AmiXml → String
  | .elem t _ _ => t

/-- Substring test on character lists (Python `pat in tag`). -/
def chars_has : List Char → List Char → Bool
  | pat, [] => pat.isEmpty
  | pat, c :: rest => List.isPrefixOf pat (c :: rest) || chars_has pat rest

/-- Python's `pat in tag` on strings. -/
def tag_has (tag pat : String) : Bool := chars_has pat.data tag.data

/-- The inner `while children and "child" in children[0].tag` run
collection: pops the maximal leading run of `child` reference elements. -/
def take_child_refs : List AmiXml → List AmiXml × List AmiXml
  | [] => ([], [])
  | AmiXml.elem t h cs :: rest =>
    if tag_has t "child" then
      let r := take_child_refs rest
      (AmiXml.elem t h cs :: r.1, r.2)
    else ([], AmiXml.elem t h cs :: rest)

theorem take_child_refs_size_le (l : List AmiXml) :
    ami_forest_size (take_child_refs l).2 ≤ ami_forest_size l := by
  induction l with
  | nil => simp [take_child_refs]
  | cons h t ih =>
    cases h with
    | elem tg hr cs =>
      by_cases htag : tag_has tg "child"
      · simp only [take_child_refs, if_pos htag, ami_forest_size]
        omega
      · simp [take_child_refs, if_neg htag]

/-- Extraction of `entry.attrib["href"]` from each element of a run (a
`KeyError` when a `child`-tagged element has no `href`). -/
def refs_of_elems : List AmiXml → Except String (List SegRef)
  | [] => .ok []
  | AmiXml.elem _ none _ :: _ => .error "KeyError"
  | AmiXml.elem _ (some r) _ :: rest =>
    match refs_of_elems rest with
    | .error e => .error e
    | .ok rs => .ok (r :: rs)

/-- AMI annotation node. -/
inductive AmiNode where
  | mk (path : List Nat) (tag : String) (is_leaf : Bool) (keys : List String)
      (convo : List AmiUtt) (nn : List AmiNode)

/-- Field accessor for the node path. -/
def AmiNode.path : AmiNode → List Nat
  | .mk p _ _ _ _ _ => p

/-- Field accessor for the leaf flag. -/
def AmiNode.is_leaf : AmiNode → Bool
  | .mk _ _ b _ _ _ => b

/-- Field accessor for the leaf payload keys. -/
def AmiNode.keys : AmiNode → List String
  | .mk _ _ _ k _ _ => k

/-- Field accessor for the children. -/
def AmiNode.nn : AmiNode → List AmiNode
  | .mk _ _ _ _ _ nn => nn

mutual

/-- `build_anno(anno_index, path, xml_node)` (AMI): register the node's
path (fatal on duplicate), compute `is_leaf` (no child is tagged exactly
`topic`) and the node tag, process the children, and fail with
`NodeNoKeys` when a leaf ends with no keys. -/
def build_anno (ws : List ((String × String) × WordIdx))
    (anno_index : List (List Nat)) (path : List Nat) (x : AmiXml) :
    Except String (AmiNode × List (List Nat)) :=
  match register_anno_node anno_index path with
  | .error e => .error e
  | .ok index1 =>
    match x with
    | .elem xml_tag _ children =>
      let is_leaf := !(children.any (fun c => decide (c.tag = "topic")))
      let node_tag :=
        if tag_has xml_tag "root" then "root"
        else if is_leaf then "leaf"
        else "topic"
      match build_loop ws index1 path is_leaf children 0 [] with
      | .error e => .error e
      | .ok (nn, keys, convo, index2) =>
        if is_leaf && keys.isEmpty then .error "NodeNoKeys"
        else .ok (.mk path node_tag is_leaf keys convo nn, index2)
termination_by 2 * ami_size x
decreasing_by
  simp only [ami_size, ami_forest_size]
  omega

/-- The `while children:` loop of AMI `build_anno`: skip `pointer`
elements; recurse into `topic` elements at the next branch ordinal; resolve
a maximal run of `child` reference elements through
`segment_to_utterances`, failing with `NodeNoKeys` on an empty key list,
and either register it as a synthetic leaf child (interior node) or make it
the node's own payload and stop (leaf node, Python `break`); any other tag
is fatal.  Returns `(nn, keys, convo, anno_index)`. -/
def build_loop (ws : List ((String × String) × WordIdx))
    (anno_index : List (List Nat)) (self_path : List Nat) (self_is_leaf : Bool)
    (children : List AmiXml) (branch_id : Nat) (acc : List AmiNode) :
    Except String (List AmiNode × List String × List AmiUtt × List (List Nat)) :=
  match children with
  | [] => .ok (acc, [], [], anno_index)
  | AmiXml.elem t h cs :: rest =>
    if tag_has t "pointer" then
      build_loop ws anno_index self_path self_is_leaf rest branch_id acc
    else if tag_has t "topic" then
      match build_anno ws anno_index (self_path ++ [branch_id])
          (AmiXml.elem t h cs) with
      | .error e => .error e
      | .ok (child, index2) =>
        build_loop ws index2 self_path self_is_leaf rest (branch_id + 1)
          (acc ++ [child])
    else if tag_has t "child" then
      let r := take_child_refs rest
      match refs_of_elems (AmiXml.elem t h cs :: r.1) with
      | .error e => .error e
      | .ok segments =>
        match segment_to_utterances ws segments with
        | .error e => .error e
        | .ok (keys, convo) =>
          if keys.isEmpty then .error "NodeNoKeys"
          else if !self_is_leaf then
            match register_anno_node anno_index (self_path ++ [branch_id]) with
            | .error e => .error e
            | .ok index2 =>
              build_loop ws index2 self_path self_is_leaf r.2 (branch_id + 1)
                (acc ++ [.mk (self_path ++ [branch_id]) "leaf" true keys convo []])
          else .ok (acc, keys, convo, anno_index)
    else .error "NonSupportedNodetype"
termination_by 2 * ami_forest_size children + 1
decreasing_by
  · simp only [ami_forest_size]
    omega
  · simp only [ami_size, ami_forest_size]
    omega
  · simp only [ami_forest_size]
    omega
  · have hle := take_child_refs_size_le rest
    simp only [ami_forest_size]
    omega

end

/-- Number of nodes in an AMI node forest (termination measure). -/
def ami_node_forest_size : List AmiNode → Nat
  | [] => 0
  | AmiNode.mk _ _ _ _ _ nn :: rest =>
    1 + ami_node_forest_size nn + ami_node_forest_size rest

/-- Checks, for a forest of AMI nodes under a parent with path `pp`, that
every node's path is `pp` extended by exactly one ordinal segment,
recursively. -/
def ami_paths_ok_forest : List Nat → List AmiNode → Bool
  | _, [] => true
  | pp, AmiNode.mk p _t _b _k _c nn :: rest =>
    (!p.isEmpty && decide (p.dropLast = pp)) && ami_paths_ok_forest p nn &&
      ami_paths_ok_forest pp rest
termination_by _ l => ami_node_forest_size l
decreasing_by
  all_goals simp only [ami_node_forest_size]
  all_goals omega

/-- Checks that every node of the tree below the given AMI node has its
parent's path extended by exactly one ordinal segment. -/
def ami_node_paths_ok : AmiNode → Bool
  | .mk p _ _ _ _ nn => ami_paths_ok_forest p nn

end HSeg

namespace HSeg

/-! ## Theorems -/

theorem raw_leaf_fst (l p c : Nat) :
    (raw_leaf l p c).1 = if c = 0 then p else l := by
  induction c generalizing p with
  | zero => simp [raw_leaf]
  | succ n ih =>
    by_cases h : l = p
    · subst h
      simp [raw_leaf, ih]
    · simp [raw_leaf, h, ih]

theorem raw_leaf_snd (l p c : Nat) :
    (raw_leaf l p c).2 = pair_bits p (List.replicate c l) := by
  induction c generalizing p with
  | zero => simp [raw_leaf, pair_bits]
  | succ n ih =>
    by_cases h : l = p
    · subst h
      simp [raw_leaf, ih, List.replicate_succ, pair_bits]
    · simp [raw_leaf, h, ih, List.replicate_succ, pair_bits]

theorem pair_bits_append (p : Nat) (xs ys : List Nat) :
    pair_bits p (xs ++ ys) = pair_bits p xs ++ pair_bits (last_owner p xs) ys := by
  induction xs generalizing p with
  | nil => simp [pair_bits, last_owner]
  | cons x xs ih => simp [pair_bits, ih, last_owner]

theorem last_owner_replicate (c l p : Nat) :
    last_owner p (List.replicate c l) = if c = 0 then p else l := by
  induction c generalizing p with
  | zero => simp [last_owner]
  | succ n ih => simp [List.replicate_succ, last_owner, ih]

theorem raw_meeting_eq_pair_bits (cs : List Nat) (l p : Nat) :
    raw_meeting l p cs = pair_bits p (owners_from l cs) := by
  induction cs generalizing l p with
  | nil => simp [raw_meeting, owners_from, pair_bits]
  | cons c cs ih =>
    simp only [raw_meeting, owners_from, raw_leaf_fst, raw_leaf_snd,
      pair_bits_append, last_owner_replicate, ih]

theorem pair_bits_length (p : Nat) (l : List Nat) :
    (pair_bits p l).length = l.length := by
  induction l generalizing p with
  | nil => rfl
  | cons x xs ih => simp [pair_bits, ih]

theorem owners_from_length (l : Nat) (cs : List Nat) :
    (owners_from l cs).length = cs.sum := by
  induction cs generalizing l with
  | nil => rfl
  | cons c cs ih => simp [owners_from, ih]

theorem pair_bits_getD_succ (l : List Nat) (p i : Nat) (h : i + 1 < l.length) :
    (pair_bits p l).getD (i + 1) 0 =
      if l.getD (i + 1) 0 ≠ l.getD i 0 then 1 else 0 := by
  induction l generalizing p i with
  | nil => simp at h
  | cons x xs ih =>
    cases i with
    | zero =>
      match xs, h with
      | y :: ys, _ => simp [pair_bits]
    | succ j =>
      have hj : j + 1 < xs.length := by
        simpa [Nat.succ_lt_succ_iff] using h
      simpa [pair_bits] using ih x j hj

theorem preorder_leaves_forest_append (a b : List AnnoTree) :
    preorder_leaves_forest (a ++ b) =
      preorder_leaves_forest a ++ preorder_leaves_forest b := by
  induction a with
  | nil => simp [preorder_leaves_forest]
  | cons x xs ih =>
    cases x
    simp [preorder_leaves_forest, ih]

theorem discover_loop_eq_preorder (l : List AnnoTree) :
    discover_loop l = preorder_leaves_forest l := by
  induction l using discover_loop.induct with
  | case1 => simp [discover_loop, preorder_leaves_forest]
  | case2 b c nn rest ih =>
    simp only [discover_loop, preorder_leaves_forest, ih,
      preorder_leaves_forest_append, List.append_assoc]

theorem preorder_flatten (l : List AnnoTree) (h : non_leaf_empty l = true) :
    ((preorder_leaves_forest l).map AnnoTree.convo).flatten = all_convos l := by
  induction l using preorder_leaves_forest.induct with
  | case1 => simp [preorder_leaves_forest, all_convos]
  | case2 b c nn rest ih1 ih2 =>
    simp only [non_leaf_empty, Bool.and_eq_true, Bool.or_eq_true] at h
    obtain ⟨⟨hb, hnn⟩, hrest⟩ := h
    simp only [preorder_leaves_forest, all_convos, List.map_append,
      List.flatten_append, ih1 hnn, ih2 hrest]
    cases b with
    | true => simp [AnnoTree.convo]
    | false =>
      have hc : c = [] := by
        rcases hb with h' | h'
        · cases h'
        · simpa [List.isEmpty_iff] using h'
      simp [hc]

/-- C4: the stack-based leaf discovery of `discover_anno_leaves` (children
pushed in reverse so pops match document order) returns exactly the leaves
of the recursive pre-order, left-to-right traversal; and, provided only
leaves carry utterances (true of the pipeline's finalized trees),
concatenating the discovered leaves' `convo` lists in that order reproduces
the meeting's full flattened utterance sequence with no gaps or
reordering. -/
theorem c4_leaf_discovery_preorder (t : AnnoTree) :
    discover_anno_leaves t = preorder_leaves t ∧
    (non_leaf_empty [t] = true →
      ((discover_anno_leaves t).map AnnoTree.convo).flatten = all_convos [t]) := by
  constructor
  · simp only [discover_anno_leaves, preorder_leaves]
    exact discover_loop_eq_preorder [t]
  · intro h
    simp only [discover_anno_leaves, discover_loop_eq_preorder]
    exact preorder_flatten [t] h

/-- C4 witness: the theorem applied to a concrete tree with one interior
root and two leaves. -/
theorem c4_leaf_discovery_preorder_witness :
    non_leaf_empty
      [AnnoTree.mk false []
        [AnnoTree.mk true [1, 2] [], AnnoTree.mk true [3] []]] = true ∧
    ((discover_anno_leaves
        (AnnoTree.mk false []
          [AnnoTree.mk true [1, 2] [], AnnoTree.mk true [3] []])).map
        AnnoTree.convo).flatten =
      all_convos
        [AnnoTree.mk false []
          [AnnoTree.mk true [1, 2] [], AnnoTree.mk true [3] []]] := by
  refine ⟨by simp [non_leaf_empty], ?_⟩
  exact (c4_leaf_discovery_preorder
    (AnnoTree.mk false []
      [AnnoTree.mk true [1, 2] [], AnnoTree.mk true [3] []])).2
    (by simp [non_leaf_empty])

theorem compose_range_filterMap (words : List (Option Tok)) :
    compose_range words =
      (words.filterMap id).foldl (fun a t => some (absorb_token a t)) none := by
  show words.foldl _ none = _
  generalize (none : Option Tok) = acc
  induction words generalizing acc with
  | nil => simp
  | cons w ws ih =>
    cases w <;> simp [List.filterMap_cons, ih]

theorem foldl_absorb_some (ts : List Tok) (u : Tok) :
    ts.foldl (fun a t => some (absorb_token a t)) (some u) =
      some (ts.foldl (fun a t => absorb_token (some a) t) u) := by
  induction ts generalizing u with
  | nil => rfl
  | cons t ts ih => simp [List.foldl_cons, ih]

theorem spec_join_rspace_congr (p q : Tok) (h : p.rspace = q.rspace)
    (ts : List Tok) : spec_join p ts = spec_join q ts := by
  cases ts with
  | nil => rfl
  | cons t ts => simp [spec_join, h]

theorem absorb_fold_text (ts : List Tok) (u : Tok) :
    (ts.foldl (fun a t => absorb_token (some a) t) u).text =
      u.text ++ spec_join u ts := by
  induction ts generalizing u with
  | nil => simp [spec_join]
  | cons t ts ih =>
    rw [List.foldl_cons, ih]
    have hr : (absorb_token (some u) t).rspace = t.rspace := rfl
    rw [spec_join_rspace_congr _ _ hr]
    show (u.text ++ ((if u.rspace && t.lspace then " " else "") ++ t.text)) ++
        spec_join t ts = u.text ++ spec_join u (t :: ts)
    simp [spec_join, String.append_assoc]

/-- C7: absorb-all composition.  Walking a token range while skipping gaps
produces a text equal to the concatenation of the non-gap tokens' texts with
a single space inserted exactly where the previous token's right-space flag
and the current token's left-space flag are both true; in particular the
stream word "flag", hyphen "-", word "sign" composes to "flag-sign" with no
spaces around the hyphen. -/
theorem c7_absorb_all_composition :
    (∀ words : List (Option Tok),
      (compose_range words).map Tok.text =
        spec_composed_text (words.filterMap id)) ∧
    compose_range
        [some ⟨"flag", true, true⟩, some ⟨"-", false, false⟩,
          some ⟨"sign", true, true⟩] =
      some ⟨"flag-sign", true, true⟩ := by
  constructor
  · intro words
    rw [compose_range_filterMap]
    cases h : words.filterMap id with
    | nil => rfl
    | cons t ts =>
      rw [List.foldl_cons]
      show (ts.foldl (fun a t => some (absorb_token a t)) (some t)).map Tok.text = _
      rw [foldl_absorb_some]
      simp [spec_composed_text, absorb_fold_text]
  · decide

/-- C6: quote classification with the per-speaker quote stack.  An
ambiguous `QUOTE` whose text is not a lone apostrophe is treated as an
opening quote when the stack is empty (an `LQUOTE` entry with no space
after, and "LEFT" pushed) and as a closing quote otherwise (an `RQUOTE`
entry with no space before, and the stack popped); a direct closing quote
met with an empty stack is only logged — the entry is still produced and
the result is not an error; and a quote token whose text is a lone
apostrophe is always reclassified as an `APOSS` (apostrophe-suffix) entry
with the stack untouched, whatever its state. -/
theorem c6_quote_stack_classification :
    (∀ t, t ≠ some apos_str →
      make_word_entry (some "QUOTE") t [] =
        .ok (some ⟨some "LQUOTE", true, false, t⟩, ["LEFT"])) ∧
    (∀ t (s : List String), t ≠ some apos_str → s ≠ [] →
      make_word_entry (some "QUOTE") t s =
        .ok (some ⟨some "RQUOTE", false, true, t⟩, s.dropLast)) ∧
    (∀ t, t ≠ some apos_str →
      make_word_entry (some "RQUOTE") t [] =
        .ok (some ⟨some "RQUOTE", false, true, t⟩, [])) ∧
    (∀ s : List String,
      make_word_entry (some "QUOTE") (some apos_str) s =
        .ok (some ⟨some "APOSS", false, false, some apos_str⟩, s) ∧
      make_word_entry (some "LQUOTE") (some apos_str) s =
        .ok (some ⟨some "APOSS", false, false, some apos_str⟩, s) ∧
      make_word_entry (some "RQUOTE") (some apos_str) s =
        .ok (some ⟨some "APOSS", false, false, some apos_str⟩, s)) := by
  refine ⟨?_, ?_, ?_, ?_⟩
  · intro t h
    simp [make_word_entry, h]
  · intro t s ht hs
    have hs' : s.isEmpty = false := by
      cases s with
      | nil => exact absurd rfl hs
      | cons a l => rfl
    simp [make_word_entry, ht, hs']
  · intro t h
    simp [make_word_entry, h]
  · intro s
    refine ⟨?_, ?_, ?_⟩ <;> simp [make_word_entry]

/-- C6 witness: the theorem applied with text "x" and the concrete stacks
`[]` and `["LEFT"]`. -/
theorem c6_quote_stack_classification_witness :
    make_word_entry (some "QUOTE") (some "x") [] =
      .ok (some ⟨some "LQUOTE", true, false, some "x"⟩, ["LEFT"]) ∧
    make_word_entry (some "QUOTE") (some "x") ["LEFT"] =
      .ok (some ⟨some "RQUOTE", false, true, some "x"⟩, []) ∧
    make_word_entry (some "RQUOTE") (some "x") [] =
      .ok (some ⟨some "RQUOTE", false, true, some "x"⟩, []) ∧
    make_word_entry (some "QUOTE") (some apos_str) ["LEFT"] =
      .ok (some ⟨some "APOSS", false, false, some apos_str⟩, ["LEFT"]) := by
  have hx : (some "x" : Option String) ≠ some apos_str := by decide
  exact ⟨c6_quote_stack_classification.1 (some "x") hx,
    c6_quote_stack_classification.2.1 (some "x") ["LEFT"] hx (by decide),
    c6_quote_stack_classification.2.2.1 (some "x") hx,
    (c6_quote_stack_classification.2.2.2 ["LEFT"]).1⟩

/-- C10: ICSI token classification reads `text[0]` for every token typed
`W` or `TRUNCW` before any guard, so for such a token whose text is absent
(`None`) or the empty string, `make_word_entry` raises an uncaught
exception (here the `TypeError`/`IndexError` results) instead of returning
an entry or a gap, whatever the quote-stack state. -/
theorem c10_word_text_subscript_safety :
    ∀ quote_stack : List String,
      make_word_entry (some "W") none quote_stack = .error "TypeError" ∧
      make_word_entry (some "W") (some "") quote_stack = .error "IndexError" ∧
      make_word_entry (some "TRUNCW") none quote_stack = .error "TypeError" ∧
      make_word_entry (some "TRUNCW") (some "") quote_stack = .error "IndexError" := by
  intro s
  refine ⟨?_, ?_, ?_, ?_⟩ <;> simp [make_word_entry]

/-- C9, counterexample: two leaves claim the same key `("A","k")` under a
fully resolving index.  The second claim is warned (the warning carries both
paths) but the key and its utterance are still appended to the second
leaf's `keys`/`convo` — the key is not kept on the first claiming leaf
only, contradicting the claim as stated. -/
theorem c9_duplicate_key_counterexample :
    attach_meeting_notes (fun _ _ => some 0) []
        [⟨[0], [("A", "k")], []⟩, ⟨[1], [("A", "k")], []⟩] =
      ([⟨[0], [("A", "k")], [0]⟩, ⟨[1], [("A", "k")], [0]⟩],
        [(("A", "k"), [1], [0])]) ∧
    ((attach_meeting_notes (fun _ _ => some 0) []
        [⟨[0], [("A", "k")], []⟩, ⟨[1], [("A", "k")], []⟩]).1.getD 1
        ⟨[], [], []⟩).keys ≠ [] := by
  constructor
  · rfl
  · decide

/-- C9, amended: when a resolving key is claimed again by a later leaf, a
warning recording the key, the claiming leaf's path and the previously
stored path is logged and the condition is never fatal (the loop is total
and returns normally); however the key is kept on BOTH leaves — the
filtered key list of any leaf is exactly its resolvable keys, with
duplicates not removed. -/
theorem c9_duplicate_key_amended (idx : String → String → Option Nat)
    (dup : List ((String × String) × List Nat)) (leaf_path : List Nat)
    (ks : List (String × String)) :
    (attach_leaf idx leaf_path dup ks).1 =
      ks.filter (fun k => (idx k.1 k.2).isSome) ∧
    (∀ k ∈ ks, (idx k.1 k.2).isSome = true →
      (∃ e ∈ dup, e.1 = k) →
      ∃ old, (k, leaf_path, old) ∈ (attach_leaf idx leaf_path dup ks).2.2.2) := by
  induction ks generalizing dup with
  | nil => exact ⟨rfl, by simp⟩
  | cons k' ks ih =>
    constructor
    · cases hres : idx k'.1 k'.2 with
      | none => simp [attach_leaf, hres, (ih dup).1, List.filter_cons]
      | some u =>
        simp [attach_leaf, hres, (ih ((k', leaf_path) :: dup)).1, List.filter_cons]
    · intro k hk hkres hdup
      rcases List.mem_cons.mp hk with rfl | hk'
      · rw [Option.isSome_iff_exists] at hkres
        obtain ⟨u, hu⟩ := hkres
        have hfind : ∃ e, dup.find? (fun e => decide (e.1 = k)) = some e := by
          rw [← Option.isSome_iff_exists, List.find?_isSome]
          obtain ⟨e, he, hek⟩ := hdup
          exact ⟨e, he, by simp [hek]⟩
        obtain ⟨e, hfe⟩ := hfind
        refine ⟨e.2, ?_⟩
        simp [attach_leaf, hu, hfe]
      · cases hres : idx k'.1 k'.2 with
        | none =>
          have := (ih dup).2 k hk' hkres hdup
          obtain ⟨old, hold⟩ := this
          exact ⟨old, by simpa [attach_leaf, hres] using hold⟩
        | some u =>
          have hdup' : ∃ e ∈ (k', leaf_path) :: dup, e.1 = k := by
            obtain ⟨e, he, hek⟩ := hdup
            exact ⟨e, List.mem_cons_of_mem _ he, hek⟩
          obtain ⟨old, hold⟩ := (ih ((k', leaf_path) :: dup)).2 k hk' hkres hdup'
          refine ⟨old, ?_⟩
          simp only [attach_leaf, hres]
          exact List.mem_append_right _ hold

/-- C9 witness: the amended theorem applied to a single leaf with path
`[1]` re-claiming a key the table already attributes to path `[0]`. -/
theorem c9_duplicate_key_amended_witness :
    (attach_leaf (fun _ _ => some 5) [1] [(("A", "k"), [0])] [("A", "k")]).1 =
      [("A", "k")].filter (fun k => ((fun _ _ => some 5) k.1 k.2).isSome) ∧
    ∃ old, (("A", "k"), [1], old) ∈
      (attach_leaf (fun _ _ => some 5) [1] [(("A", "k"), [0])] [("A", "k")]).2.2.2 := by
  refine ⟨(c9_duplicate_key_amended (fun _ _ => some 5) [(("A", "k"), [0])] [1]
    [("A", "k")]).1, ?_⟩
  exact (c9_duplicate_key_amended (fun _ _ => some 5) [(("A", "k"), [0])] [1]
    [("A", "k")]).2 ("A", "k") (by simp) (by simp)
    ⟨(("A", "k"), [0]), by simp, rfl⟩

theorem register_ok_nodup {idx idx' : List (List Nat)} {p : List Nat}
    (hn : idx.Nodup) (h : register_anno_node idx p = .ok idx') : idx'.Nodup := by
  rw [register_anno_node] at h
  split at h
  · cases h
  · rename_i hmem
    cases h
    simp [List.nodup_append, hn, hmem]

theorem paths_ok_forest_append (pp : List Nat) (a b : List NormNode) :
    paths_ok_forest pp (a ++ b) =
      (paths_ok_forest pp a && paths_ok_forest pp b) := by
  induction a with
  | nil => simp [paths_ok_forest]
  | cons x xs ih =>
    cases x
    simp [paths_ok_forest, ih, Bool.and_assoc]

theorem normalize_invariant :
    (∀ (p : List Nat) (t : RawAnno) (idx : List (List Nat)),
      ∀ node idx', idx.Nodup →
        normalize_anno_tree p t idx = .ok (node, idx') →
        idx'.Nodup ∧ node.path = p ∧ node_paths_ok node = true) ∧
    (∀ (p : List Nat) (lf : Bool) (nn : List RawAnno) (b : Nat)
      (idx : List (List Nat)) (acc : List NormNode),
      ∀ node idx', idx.Nodup → paths_ok_forest p acc = true →
        normalize_loop p lf nn b idx acc = .ok (node, idx') →
        idx'.Nodup ∧ node.path = p ∧ node_paths_ok node = true) := by
  refine normalize_anno_tree.mutual_induct
    (fun p t idx => ∀ node idx', idx.Nodup →
      normalize_anno_tree p t idx = .ok (node, idx') →
      idx'.Nodup ∧ node.path = p ∧ node_paths_ok node = true)
    (fun p lf nn b idx acc => ∀ node idx', idx.Nodup →
      paths_ok_forest p acc = true →
      normalize_loop p lf nn b idx acc = .ok (node, idx') →
      idx'.Nodup ∧ node.path = p ∧ node_paths_ok node = true)
    ?_ ?_ ?_ ?_ ?_ ?_ ?_ ?_ ?_
  · -- register fails: no ok result
    intro p t idx e herr node idx' _hn hok
    rw [normalize_anno_tree, herr] at hok
    cases hok
  · -- utterance placeholder: empty leaf
    intro p idx index1 hreg key node idx' hn hok
    rw [normalize_anno_tree, hreg] at hok
    cases hok
    exact ⟨register_ok_nodup hn hreg, rfl, by simp [node_paths_ok, paths_ok_forest]⟩
  · -- topic node: delegate to the loop over its children
    intro p idx index1 hreg nn ih node idx' hn hok
    rw [normalize_anno_tree, hreg] at hok
    exact ih node idx' (register_ok_nodup hn hreg) (by simp [paths_ok_forest]) hok
  · -- loop, no children left
    intro p lf b idx acc node idx' hn hacc hok
    rw [normalize_loop] at hok
    cases hok
    exact ⟨hn, rfl, by simpa [node_paths_ok] using hacc⟩
  · -- loop, leading utterance run on a leaf node: early return
    intro p b idx acc key rest node idx' hn _hacc hok
    rw [normalize_loop] at hok
    simp only [if_pos rfl] at hok
    cases hok
    exact ⟨hn, rfl, by simp [node_paths_ok, paths_ok_forest]⟩
  · -- loop, utterance run on an interior node, registration fails
    intro p lf b idx acc key rest hlf e herr node idx' _hn _hacc hok
    rw [normalize_loop] at hok
    rw [if_neg hlf, herr] at hok
    cases hok
  · -- loop, utterance run on an interior node: synthetic leaf child
    intro p lf b idx acc key rest r ctk hlf index1 hreg ih node idx' hn hacc hok
    rw [normalize_loop] at hok
    rw [if_neg hlf, hreg] at hok
    refine ih node idx' (register_ok_nodup hn hreg) ?_ hok
    rw [paths_ok_forest_append, hacc]
    simp [paths_ok_forest]
  · -- loop, topic child whose normalization fails
    intro p lf b idx acc nn rest e herr _ih node idx' _hn _hacc hok
    rw [normalize_loop, herr] at hok
    cases hok
  · -- loop, topic child normalized successfully
    intro p lf b idx acc nn rest child index2 hrec ih1 ih2 node idx' hn hacc hok
    rw [normalize_loop, hrec] at hok
    obtain ⟨hn2, hcp, hcok⟩ := ih1 child index2 hn hrec
    refine ih2 node idx' hn2 ?_ hok
    rw [paths_ok_forest_append, hacc]
    cases child with
    | mk cp cb ck cnn =>
      simp only [NormNode.path] at hcp
      subst hcp
      simp only [node_paths_ok] at hcok
      simp [paths_ok_forest, hcok]

theorem ami_paths_ok_forest_append (pp : List Nat) (a b : List AmiNode) :
    ami_paths_ok_forest pp (a ++ b) =
      (ami_paths_ok_forest pp a && ami_paths_ok_forest pp b) := by
  induction a with
  | nil => simp [ami_paths_ok_forest]
  | cons x xs ih =>
    cases x
    simp [ami_paths_ok_forest, ih, Bool.and_assoc]

theorem build_invariant (ws : List ((String × String) × WordIdx)) :
    (∀ (idx : List (List Nat)) (p : List Nat) (x : AmiXml),
      ∀ node idx', idx.Nodup →
        build_anno ws idx p x = .ok (node, idx') →
        idx'.Nodup ∧ node.path = p ∧ ami_node_paths_ok node = true) ∧
    (∀ (idx : List (List Nat)) (p : List Nat) (lf : Bool)
      (children : List AmiXml) (b : Nat) (acc : List AmiNode),
      ∀ res, idx.Nodup → ami_paths_ok_forest p acc = true →
        build_loop ws idx p lf children b acc = .ok res →
        res.2.2.2.Nodup ∧ ami_paths_ok_forest p res.1 = true) := by
  refine build_anno.mutual_induct ws
    (fun idx p x => ∀ node idx', idx.Nodup →
      build_anno ws idx p x = .ok (node, idx') →
      idx'.Nodup ∧ node.path = p ∧ ami_node_paths_ok node = true)
    (fun idx p lf children b acc => ∀ res, idx.Nodup →
      ami_paths_ok_forest p acc = true →
      build_loop ws idx p lf children b acc = .ok res →
      res.2.2.2.Nodup ∧ ami_paths_ok_forest p res.1 = true)
    ?_ ?_ ?_ ?_ ?_ ?_ ?_ ?_ ?_ ?_ ?_ ?_ ?_ ?_ ?_
  · -- registration of the node path fails
    intro idx p x e herr node idx' _hn hok
    rw [build_anno, herr] at hok
    cases hok
  · -- the child loop fails
    intro idx p index1 hreg t href children is_leaf e hloop _ih node idx' _hn hok
    rw [build_anno, hreg] at hok
    simp only at hok
    have hloop2 : build_loop ws index1 p
        (!children.any fun c => decide (c.tag = "topic")) children 0 [] =
        Except.error e := hloop
    rw [hloop2] at hok
    cases hok
  · -- a leaf with no keys is fatal
    intro idx p index1 hreg t href children is_leaf nn keys convo index2 hloop
      hcheck _ih node idx' _hn hok
    rw [build_anno, hreg] at hok
    simp only at hok
    have hloop2 : build_loop ws index1 p
        (!children.any fun c => decide (c.tag = "topic")) children 0 [] =
        Except.ok (nn, keys, convo, index2) := hloop
    have hcheck2 : ((!children.any fun c => decide (c.tag = "topic")) &&
        keys.isEmpty) = true := hcheck
    simp only [hloop2, hcheck2, if_true] at hok
    cases hok
  · -- the node is assembled from the loop's results
    intro idx p index1 hreg t href children is_leaf nn keys convo index2 hloop
      hcheck ih node idx' hn hok
    rw [build_anno, hreg] at hok
    simp only at hok
    have hloop2 : build_loop ws index1 p
        (!children.any fun c => decide (c.tag = "topic")) children 0 [] =
        Except.ok (nn, keys, convo, index2) := hloop
    have hcheck2 : ((!children.any fun c => decide (c.tag = "topic")) &&
        keys.isEmpty) = false := by
      have h2 : ¬((!children.any fun c => decide (c.tag = "topic")) &&
        keys.isEmpty) = true := hcheck
      simpa using h2
    simp only [hloop2, hcheck2, Bool.false_eq_true, if_false] at hok
    cases hok
    have hres := ih (nn, keys, convo, index2) (register_ok_nodup hn hreg)
      (by simp [ami_paths_ok_forest]) hloop2
    exact ⟨hres.1, rfl, by simpa [ami_node_paths_ok] using hres.2⟩
  · -- loop: no children left
    intro idx p lf b acc res hn hacc hok
    rw [build_loop] at hok
    cases hok
    exact ⟨hn, hacc⟩
  · -- loop: pointer element skipped
    intro idx p lf b acc tag href cs rest hptr ih res hn hacc hok
    rw [build_loop, if_pos hptr] at hok
    exact ih res hn hacc hok
  · -- loop: topic child whose build fails
    intro idx p lf b acc tag href cs rest hptr htp e herr _ih res _hn _hacc hok
    rw [build_loop, if_neg hptr, if_pos htp, herr] at hok
    cases hok
  · -- loop: topic child built successfully
    intro idx p lf b acc tag href cs rest hptr htp child index2 hrec ih1 ih2
      res hn hacc hok
    rw [build_loop, if_neg hptr, if_pos htp, hrec] at hok
    obtain ⟨hn2, hcp, hcok⟩ := ih1 child index2 hn hrec
    refine ih2 res hn2 ?_ hok
    rw [ami_paths_ok_forest_append, hacc]
    cases child with
    | mk cp ct cb ck cc cnn =>
      simp only [AmiNode.path] at hcp
      subst hcp
      simp only [ami_node_paths_ok] at hcok
      simp [ami_paths_ok_forest, hcok]
  · -- loop: a child run with a missing href
    intro idx p lf b acc tag href cs rest hptr htp hch r e herr res _hn _hacc hok
    rw [build_loop, if_neg hptr, if_neg htp, if_pos hch] at hok
    simp only [] at hok
    have herr2 : refs_of_elems
        (AmiXml.elem tag href cs :: (take_child_refs rest).1) =
        Except.error e := herr
    simp [herr2] at hok
  · -- loop: a child run whose resolution fails
    intro idx p lf b acc tag href cs rest hptr htp hch r rs hrefs e hseg res
      _hn _hacc hok
    rw [build_loop, if_neg hptr, if_neg htp, if_pos hch] at hok
    simp only [] at hok
    have hrefs2 : refs_of_elems
        (AmiXml.elem tag href cs :: (take_child_refs rest).1) =
        Except.ok rs := hrefs
    simp [hrefs2, hseg] at hok
  · -- loop: a child run resolving to no keys is fatal
    intro idx p lf b acc tag href cs rest hptr htp hch r rs hrefs keys convo
      hseg hkeys res _hn _hacc hok
    rw [build_loop, if_neg hptr, if_neg htp, if_pos hch] at hok
    simp only [] at hok
    have hrefs2 : refs_of_elems
        (AmiXml.elem tag href cs :: (take_child_refs rest).1) =
        Except.ok rs := hrefs
    simp [hrefs2, hseg, hkeys] at hok
  · -- loop: synthetic leaf registration fails
    intro idx p lf b acc tag href cs rest hptr htp hch r rs hrefs keys convo
      hseg hkeys hlf e herr res _hn _hacc hok
    rw [build_loop, if_neg hptr, if_neg htp, if_pos hch] at hok
    simp only [] at hok
    have hrefs2 : refs_of_elems
        (AmiXml.elem tag href cs :: (take_child_refs rest).1) =
        Except.ok rs := hrefs
    have hkeys2 : keys.isEmpty = false := by simpa using hkeys
    simp [hrefs2, hseg, hkeys2, hlf, herr] at hok
  · -- loop: a child run becomes a registered synthetic leaf child
    intro idx p lf b acc tag href cs rest hptr htp hch r rs hrefs keys convo
      hseg hkeys hlf index1 hreg ih res hn hacc hok
    rw [build_loop, if_neg hptr, if_neg htp, if_pos hch] at hok
    simp only [] at hok
    have hrefs2 : refs_of_elems
        (AmiXml.elem tag href cs :: (take_child_refs rest).1) =
        Except.ok rs := hrefs
    have hkeys2 : keys.isEmpty = false := by simpa using hkeys
    simp only [hrefs2, hseg, hkeys2, Bool.false_eq_true, if_false, hlf,
      if_true, hreg] at hok
    have hok2 : build_loop ws index1 p lf (take_child_refs rest).2 (b + 1)
        (acc ++ [AmiNode.mk (p ++ [b]) "leaf" true keys convo []]) =
        Except.ok res := hok
    refine ih res (register_ok_nodup hn hreg) ?_ hok2
    rw [ami_paths_ok_forest_append, hacc]
    simp [ami_paths_ok_forest]
  · -- loop: a child run becomes the leaf node's own payload (break)
    intro idx p lf b acc tag href cs rest hptr htp hch r rs hrefs keys convo
      hseg hkeys hlf res hn hacc hok
    rw [build_loop, if_neg hptr, if_neg htp, if_pos hch] at hok
    simp only [] at hok
    have hrefs2 : refs_of_elems
        (AmiXml.elem tag href cs :: (take_child_refs rest).1) =
        Except.ok rs := hrefs
    have hkeys2 : keys.isEmpty = false := by simpa using hkeys
    have hlf2 : (!lf) = false := by simpa using hlf
    simp only [hrefs2, hseg, hkeys2, Bool.false_eq_true, if_false, hlf2] at hok
    cases hok
    exact ⟨hn, hacc⟩
  · -- loop: any other element tag is fatal
    intro idx p lf b acc tag href cs rest hptr htp hch res _hn _hacc hok
    rw [build_loop, if_neg hptr, if_neg htp, if_neg hch] at hok
    cases hok

/-- C5: for every meeting whose load completes, every path registered in
the annotation index is unique — registering a duplicate path is fatal
(`register_anno_node` errors exactly then) — and every non-root registered
node's path equals its parent's path extended by exactly one ordinal
segment.  This holds in both dialects: for ICSI's `normalize_anno_tree`
and for AMI's `build_anno`, a run that completes from the fresh index
yields an index without duplicate registrations and a tree in which every
node's children carry the node's own path extended by one ordinal (every
registered path is either the root's or is introduced together with the
child node that carries it). -/
theorem c5_path_uniqueness_and_parent_extension :
    (∀ (anno_index : List (List Nat)) (path : List Nat),
      path ∈ anno_index →
      register_anno_node anno_index path = .error "Duplicate node path") ∧
    (∀ (p : List Nat) (t : RawAnno) (node : NormNode) (idx' : List (List Nat)),
      normalize_anno_tree p t [] = .ok (node, idx') →
      idx'.Nodup ∧ node.path = p ∧ node_paths_ok node = true) ∧
    (∀ (ws : List ((String × String) × WordIdx)) (p : List Nat) (x : AmiXml)
      (node : AmiNode) (idx' : List (List Nat)),
      build_anno ws [] p x = .ok (node, idx') →
      idx'.Nodup ∧ node.path = p ∧ ami_node_paths_ok node = true) := by
  refine ⟨?_, ?_, ?_⟩
  · intro idx p h
    simp [register_anno_node, h]
  · intro p t node idx' hok
    exact normalize_invariant.1 p t [] node idx' (by simp) hok
  · intro ws p x node idx' hok
    exact (build_invariant ws).1 [] p x node idx' (by simp) hok

/-- C5 witness: the theorem applied to a duplicate registration, to a
concrete ICSI tree (an interior node with a leading utterance run and one
topic child) and to a concrete AMI document (a leaf with one resolving
`child` reference). -/
theorem c5_path_uniqueness_and_parent_extension_witness :
    register_anno_node [([] : List Nat)] [] = .error "Duplicate node path" ∧
    (([[], [0], [1]] : List (List Nat)).Nodup ∧
      (NormNode.mk [] false [] [NormNode.mk [0] true ["a"] [],
        NormNode.mk [1] true ["b"] []]).path = [] ∧
      node_paths_ok (NormNode.mk [] false [] [NormNode.mk [0] true ["a"] [],
        NormNode.mk [1] true ["b"] []]) = true) ∧
    (([[]] : List (List Nat)).Nodup ∧
      (AmiNode.mk [] "leaf" true ["c0"]
        [AmiUtt.mk "c0" "A" "m" 0 1 "Hi." "-Hi."] []).path = [] ∧
      ami_node_paths_ok (AmiNode.mk [] "leaf" true ["c0"]
        [AmiUtt.mk "c0" "A" "m" 0 1 "Hi." "-Hi."] []) = true) := by
  refine ⟨c5_path_uniqueness_and_parent_extension.1 [[]] [] (by simp), ?_, ?_⟩
  · exact c5_path_uniqueness_and_parent_extension.2.1 []
      (RawAnno.topic [RawAnno.utt "a", RawAnno.topic [RawAnno.utt "b"]])
      (NormNode.mk [] false [] [NormNode.mk [0] true ["a"] [],
        NormNode.mk [1] true ["b"] []]) [[], [0], [1]]
      (by simp [normalize_anno_tree, normalize_loop, take_utts,
        register_anno_node, RawAnno.is_utt])
  · exact c5_path_uniqueness_and_parent_extension.2.2
      [(("m", "A"), WordIdx.mk [some (AWord.mk "Hi." true true 0 1)]
        [("k0", 0)])] []
      (AmiXml.elem "topic" none
        [AmiXml.elem "child"
          (some (SegRef.mk "c0" "m" "A" (SegRange.single "k0"))) []])
      (AmiNode.mk [] "leaf" true ["c0"]
        [AmiUtt.mk "c0" "A" "m" 0 1 "Hi." "-Hi."] []) [[]]
      (by simp [build_anno, build_loop, register_anno_node, take_child_refs,
        refs_of_elems, segment_to_utterances, seg_all_utts, seg_entry_utts,
        lookup_index, ami_compose_utterance, tag_has, chars_has, AmiXml.tag])

theorem compose_range_all_gaps (words : List (Option Tok))
    (h : ∀ w ∈ words, w = none) : compose_range words = none := by
  induction words with
  | nil => rfl
  | cons w ws ih =>
    have hw : w = none := h w (List.mem_cons_self w ws)
    subst hw
    exact ih (fun w hw => h w (List.mem_cons_of_mem _ hw))

theorem split_words_all_gaps (content speaker meeting : String)
    (words : List (Option AWord)) (h : ∀ w ∈ words, w = none) :
    split_words content speaker meeting words [] = .ok [] := by
  induction words with
  | nil => rfl
  | cons w ws ih =>
    have hw : w = none := h w (List.mem_cons_self w ws)
    subst hw
    rw [split_words]
    exact ih (fun w hw => h w (List.mem_cons_of_mem _ hw))

/-- C8, counterexample: in the ICSI dialect, composing a segment whose
resolved range contains only gaps is not an error: the `if utterance:`
guard makes `load_meeting_utterances` silently skip the segment,
producing no utterance, and the load continues — contradicting the claim
that this is a hard error in both dialects. -/
theorem c8_zero_token_range_counterexample :
    icsi_process_seg [none, none] "seg0" "A" (some 0) (some 1) =
      .ok none := by
  rfl

/-- C8, amended: a resolved range with zero non-gap tokens is a hard
error only in the AMI dialect: there `segment_to_utterances` returns no
keys and `build_anno` fails with `NodeNoKeys` before any leaf is built
(the error aborts the build, so no node is produced at all).  In the ICSI
dialect the same situation is silently tolerated: the segment composes to
nothing and is skipped without an error. -/
theorem c8_zero_token_range_amended :
    (∀ (words : List (Option Tok)) (seg_id speaker : String)
      (seg_start seg_end : Option Int), (∀ w ∈ words, w = none) →
      icsi_process_seg words seg_id speaker seg_start seg_end = .ok none) ∧
    (∀ (widx : WordIdx) (m sp content k1 k2 : String) (i1 i2 : Nat),
      lookup_index widx k1 = some i1 →
      lookup_index widx k2 = some i2 →
      (∀ w ∈ (widx.words.drop i1).take (i2 + 1 - i1), w = none) →
      segment_to_utterances [((m, sp), widx)]
          [SegRef.mk content m sp (SegRange.range k1 k2)] = .ok ([], []) ∧
      (∀ (anno_index : List (List Nat)) (path : List Nat)
        (xtag ctag : String) (ccs : List AmiXml),
        path ∉ anno_index →
        tag_has ctag "pointer" = false →
        tag_has ctag "topic" = false →
        tag_has ctag "child" = true →
        build_anno [((m, sp), widx)] anno_index path
            (AmiXml.elem xtag none
              [AmiXml.elem ctag
                (some (SegRef.mk content m sp (SegRange.range k1 k2))) ccs]) =
          .error "NodeNoKeys")) := by
  constructor
  · intro words seg_id speaker seg_start seg_end h
    rw [icsi_process_seg, compose_range_all_gaps words h]
  · intro widx m sp content k1 k2 i1 i2 hk1 hk2 hgaps
    have hseg : segment_to_utterances [((m, sp), widx)]
        [SegRef.mk content m sp (SegRange.range k1 k2)] = .ok ([], []) := by
      have hentry : seg_entry_utts [((m, sp), widx)]
          (SegRef.mk content m sp (SegRange.range k1 k2)) = .ok [] := by
        simp only [seg_entry_utts, List.find?_cons, decide_True, hk1, hk2]
        exact split_words_all_gaps content sp m _ hgaps
      simp [segment_to_utterances, seg_all_utts, hentry]
    refine ⟨hseg, ?_⟩
    intro anno_index path xtag ctag ccs hpath hptr hto hch
    have hne : (decide (ctag = "topic")) = false := by
      rcases hct : decide (ctag = "topic") with _ | _
      · rfl
      · exfalso
        have he : ctag = "topic" := of_decide_eq_true hct
        rw [he] at hto
        exact absurd hto (by decide)
    have hreg : register_anno_node anno_index path =
        .ok (anno_index ++ [path]) := by
      simp [register_anno_node, hpath]
    rw [build_anno, hreg]
    simp only [AmiXml.tag, List.any_cons, List.any_nil, hne, Bool.or_false,
      Bool.not_false]
    rw [build_loop]
    rw [if_neg (by simp [hptr]), if_neg (by simp [hto]), if_pos hch]
    simp only [take_child_refs, refs_of_elems, hseg]
    rfl

/-- C8 witness: the amended theorem applied to a two-gap word index and a
concrete annotation element carrying the degenerate range. -/
theorem c8_zero_token_range_amended_witness :
    icsi_process_seg [none] "s1" "B" (some 3) none = .ok none ∧
    segment_to_utterances
        [(("m", "A"), WordIdx.mk [none, none] [("k0", 0), ("k1", 1)])]
        [SegRef.mk "c0" "m" "A" (SegRange.range "k0" "k1")] = .ok ([], []) ∧
    build_anno [(("m", "A"), WordIdx.mk [none, none] [("k0", 0), ("k1", 1)])]
        [] []
        (AmiXml.elem "topic" none
          [AmiXml.elem "child"
            (some (SegRef.mk "c0" "m" "A" (SegRange.range "k0" "k1"))) []]) =
      .error "NodeNoKeys" := by
  have hami := c8_zero_token_range_amended.2
    (WordIdx.mk [none, none] [("k0", 0), ("k1", 1)]) "m" "A" "c0" "k0" "k1"
    0 1 (by simp [lookup_index]) (by simp [lookup_index]) (by decide)
  exact ⟨c8_zero_token_range_amended.1 [none] "s1" "B" (some 3) none
      (by simp),
    hami.1,
    hami.2 [] [] "topic" "child" [] (by simp) (by decide) (by decide)
      (by decide)⟩

/-- C1: evaluation of the smoothing code at the failing input.  For the raw
vector `[0,1,1,0,0,0,0,0,0,0,0,0]` (three topic segments of sizes 1, 1 and
10) and the code's own `MIN_SEGMENT_SIZE = 10`, the smoothed vector keeps
the boundaries at indices 1 and 2, which are only 1 < 10 apart: for every
`i < M` the Python slice `transitions[i - 10 : i]` has a negative start, so
(the list being at least 10 long) it is empty and no suppression happens.
This contradicts the claimed minimum-separation property; the spec (design
note on the negative-start window) identifies the wraparound as unintended,
so the claim is recorded as a code bug. -/
theorem c1_smoothing_code_bug_eval :
    smooth_transitions 10 [0, 1, 1, 0, 0, 0, 0, 0, 0, 0, 0, 0] =
      [0, 1, 1, 0, 0, 0, 0, 0, 0, 0, 0, 0] ∧
    (smooth_transitions 10 [0, 1, 1, 0, 0, 0, 0, 0, 0, 0, 0, 0]).getD 1 0 = 1 ∧
    (smooth_transitions 10 [0, 1, 1, 0, 0, 0, 0, 0, 0, 0, 0, 0]).getD 2 0 = 1 ∧
    2 - 1 < 10 := by
  refine ⟨?_, ?_, ?_, ?_⟩ <;> decide

/-- C2, counterexample: smoothing `[0,1,0,0,1,0,0,0,0,0,0,1]` with `M = 10`
does not produce the vector `[0,1,0,0,0,0,0,0,0,0,0,1]` claimed by the
spec's example. -/
theorem c2_smoothing_example_counterexample :
    smooth_transitions 10 [0, 1, 0, 0, 1, 0, 0, 0, 0, 0, 0, 1] ≠
      [0, 1, 0, 0, 0, 0, 0, 0, 0, 0, 0, 1] := by
  decide

/-- C2, amended: smoothing `[0,1,0,0,1,0,0,0,0,0,0,1]` with `M = 10` yields
`[0,1,0,0,1,0,0,0,0,0,0,0]`.  The boundary at index 4 survives because for
`i < 10` the window `transitions[i - 10 : i]` has a negative start and (the
list being 12 long) is empty; the boundary at index 11 is suppressed because
its window `transitions[1 : 11]` contains the surviving boundaries at
indices 1 and 4. -/
theorem c2_smoothing_example_amended :
    smooth_transitions 10 [0, 1, 0, 0, 1, 0, 0, 0, 0, 0, 0, 1] =
      [0, 1, 0, 0, 1, 0, 0, 0, 0, 0, 0, 0] := by
  decide

/-- C3: for every meeting (modelled by the list of its leaves'
utterance counts, in discovery order), the raw transition vector emitted by
`compose_meeting_notes` has length equal to the flattened utterance count;
its first entry is 0 (the first leaf of a loaded meeting is nonempty); and
for every `i ≥ 1` the entry at `i` is 1 exactly when utterance `i`'s owning
leaf differs from utterance `i-1`'s owning leaf. -/
theorem c3_raw_transition_vector (convos : List Nat) :
    (raw_transitions convos).length = convos.sum ∧
    (∀ c cs, convos = c :: cs → 0 < c →
      (raw_transitions convos).head? = some 0) ∧
    (∀ i, 1 ≤ i → i < (raw_transitions convos).length →
      ((raw_transitions convos).getD i 0 = 1 ↔
        (owners convos).getD i 0 ≠ (owners convos).getD (i - 1) 0)) := by
  have hrep : raw_transitions convos = pair_bits 0 (owners convos) :=
    raw_meeting_eq_pair_bits convos 0 0
  refine ⟨?_, ?_, ?_⟩
  · rw [hrep, pair_bits_length]
    exact owners_from_length 0 convos
  · rintro c cs rfl hc
    rw [hrep]
    cases c with
    | zero => exact absurd hc (by simp)
    | succ n =>
      simp [owners, owners_from, List.replicate_succ, pair_bits]
  · intro i h1 h2
    obtain ⟨j, rfl⟩ : ∃ j, i = j + 1 := ⟨i - 1, (Nat.succ_pred_eq_of_pos h1).symm⟩
    rw [hrep] at h2 ⊢
    rw [pair_bits_length] at h2
    rw [pair_bits_getD_succ (owners convos) 0 j h2]
    simp only [Nat.add_sub_cancel]
    by_cases hne : (owners convos).getD (j + 1) 0 = (owners convos).getD j 0 <;>
      simp [hne]

/-- C3 witness: the theorem instantiated at the concrete meeting with two
leaves of 2 and 1 utterances. -/
theorem c3_raw_transition_vector_witness :
    (raw_transitions [2, 1]).length = [2, 1].sum ∧
    (raw_transitions [2, 1]).head? = some 0 ∧
    ((raw_transitions [2, 1]).getD 2 0 = 1 ↔
      (owners [2, 1]).getD 2 0 ≠ (owners [2, 1]).getD 1 0) := by
  refine ⟨(c3_raw_transition_vector [2, 1]).1,
    (c3_raw_transition_vector [2, 1]).2.1 2 [1] rfl (by decide),
    (c3_raw_transition_vector [2, 1]).2.2 2 (by decide) ?_⟩
  rw [(c3_raw_transition_vector [2, 1]).1]
  decide

end HSeg
